import Mathlib

/-!
Verification of the measurement-error-mitigation core of the
IBM Quantum Challenge 2020 exercise 2 notebook
(`Challenge2_MeasurementErrorMitigation.py`).

The notebook itself is thin glue around a calibration/correction
procedure: build a column-stochastic confusion matrix from per-basis-state
calibration counts, compute a generalized (pseudo-)inverse, and apply it to
noisy outcome counts, clipping negatives and rescaling to preserve the
total shot count.  The numeric core (`CalibrationMatrixBuilder`,
`MeasurementFilter`) is modelled here over exact rationals; the notebook's
hard-coded answer flow is embedded directly from the source.
-/

namespace MeasErrMit

/-- A basis label: a measured bit-string identified with its integer value
under the fixed lexicographic/integer ordering.  A label is valid for an
`n`-qubit setting when it is below `2 ^ n`. -/
abbrev BasisLabel := ℕ

/-- Outcome counts: an association list from basis label to a shot count.
Labels missing from the list mean a count of zero. -/
abbrev OutcomeCounts := List (BasisLabel × ℕ)

/-- Total number of shots recorded in an `OutcomeCounts`. -/
def countTotal : OutcomeCounts → ℕ
  | [] => 0
  | kc :: rest => kc.2 + countTotal rest

/-- Number of shots recorded for label `k` (summing duplicate entries;
labels missing from the list are treated as zero count). -/
def lookupCount : OutcomeCounts → ℕ → ℕ
  | [], _ => 0
  | kc :: rest, k => (if kc.1 = k then kc.2 else 0) + lookupCount rest k

/-- The calibration (confusion) matrix: a `2 ^ n × 2 ^ n` matrix of exact
rationals, entry `M i j` being the empirical probability of observing
outcome `i` when state `j` was prepared. -/
abbrev CalibrationMatrix (N : ℕ) : Type := Matrix (Fin N) (Fin N) ℚ

/-- Mitigated counts: a real-valued (here: rational-valued) corrected count
for each of the `2 ^ n` basis labels. -/
abbrev MitigatedCounts (N : ℕ) : Type := Fin N → ℚ

/-- Modelled from the spec: the error taxonomy of
`CalibrationMatrixBuilder.build`, which is not part of the repository
source (the notebook delegates it to the external `qiskit.ignis` fitter). -/
inductive BuildError where
  | incompleteCalibrationError
  | inconsistentShotCountError
  | unknownLabelError
deriving DecidableEq

/-- Modelled from the spec: the error raised by `MeasurementFilter.fit`
only when the pseudo-inverse computation diverges or produces non-finite
values (impossible in the exact-rational model). -/
inductive FitError where
  | singularMatrixError
deriving DecidableEq

/-- Modelled from the spec: usage-sequencing errors of
`MeasurementFilter.apply`. -/
inductive ApplyError where
  | filterNotFittedError
  | labelCardinalityError
deriving DecidableEq

/-- All labels occurring in an `OutcomeCounts` are valid basis labels for
dimension `N`. -/
def ValidLabels (N : ℕ) (c : OutcomeCounts) : Prop := ∀ kc ∈ c, kc.1 < N

instance (N : ℕ) (c : OutcomeCounts) : Decidable (ValidLabels N c) :=
  List.decidableBAll _ c

/-- The outcome counts of the (first) calibration run that prepared label
`j`, or the empty counts when no such run exists. -/
def runFor (runs : List (BasisLabel × OutcomeCounts)) (j : ℕ) : OutcomeCounts :=
  ((runs.find? fun p => p.1 == j).map Prod.snd).getD []

/-- Modelled from the spec: `CalibrationMatrixBuilder.build`, the matrix
construction the notebook delegates to the external library
(`complete_meas_cal` / `CompleteMeasFitter`).  Column `j` is the outcome
distribution of the run that prepared label `j`, normalized by that run's
total shots; the three structural error conditions are checked first, in
the order the spec lists them. -/
def CalibrationMatrixBuilder.build (n : ℕ) (runs : List (BasisLabel × OutcomeCounts)) :
    Except BuildError (CalibrationMatrix (2 ^ n)) :=
  if ∀ j < 2 ^ n, ∃ p ∈ runs, p.1 = j then
    if ∀ p ∈ runs, 0 < countTotal p.2 then
      if ∀ p ∈ runs, ValidLabels (2 ^ n) p.2 then
        .ok (Matrix.of fun i j =>
          (lookupCount (runFor runs j.val) i.val : ℚ) /
            (countTotal (runFor runs j.val) : ℚ))
      else .error .unknownLabelError
    else .error .inconsistentShotCountError
  else .error .incompleteCalibrationError

/-! Executable Moore–Penrose pseudo-inverse over ℚ, via reduced row
echelon form and rank factorization.  Only its invertible shortcut is
exercised by the theorems below; the general branch implements the
spec's generalized-inverse requirement for singular matrices. -/

/-- Entry of a row-list matrix, out-of-range positions reading as `0`. -/
def entryAt (rows : List (List ℚ)) (r c : ℕ) : ℚ := (rows.getD r []).getD c 0

/-- Scale a row by a constant. -/
def scaleRow (a : ℚ) (row : List ℚ) : List ℚ := row.map fun x => a * x

/-- Subtract `a` times row `s` from row `r` entrywise. -/
def rowSub (r s : List ℚ) (a : ℚ) : List ℚ := List.zipWith (fun x y => x - a * y) r s

/-- Eliminate column `col` from every row other than the pivot row `pr`. -/
def elimOthers (pr col : ℕ) (rows : List (List ℚ)) : List (List ℚ) :=
  (List.range rows.length).foldl
    (fun acc r =>
      if r = pr then acc
      else acc.set r (rowSub (acc.getD r []) (acc.getD pr []) (entryAt acc r col)))
    rows

/-- One Gauss–Jordan pass per column (the fuel is the number of columns
still to process); returns the reduced rows and the pivot column list. -/
def rrefGo : ℕ → ℕ → ℕ → List (List ℚ) → List ℕ → List (List ℚ) × List ℕ
  | 0, _, _, rows, pivs => (rows, pivs)
  | fuel + 1, col, pr, rows, pivs =>
    match (List.range rows.length).find? (fun r => pr ≤ r && entryAt rows r col ≠ 0) with
    | none => rrefGo fuel (col + 1) pr rows pivs
    | some r =>
      let rows1 := (rows.set pr (rows.getD r [])).set r (rows.getD pr [])
      let rows2 := rows1.set pr (scaleRow (entryAt rows1 pr col)⁻¹ (rows1.getD pr []))
      let rows3 := elimOthers pr col rows2
      rrefGo fuel (col + 1) (pr + 1) rows3 (pivs ++ [col])

/-- Reduced row echelon form of a row-list matrix with `ncols` columns,
together with its pivot columns. -/
def rref (rows : List (List ℚ)) (ncols : ℕ) : List (List ℚ) × List ℕ :=
  rrefGo ncols 0 0 rows []

/-- Inverse of a square rational matrix via adjugate and determinant
(zero when the determinant vanishes; only ever used on invertible
Gram matrices of full-rank factors). -/
def sqInverse (k : ℕ) (A : Matrix (Fin k) (Fin k) ℚ) : Matrix (Fin k) (Fin k) ℚ :=
  if A.det = 0 then 0 else (A.det)⁻¹ • A.adjugate

/-- Row-list representation of a square matrix. -/
def toRows (N : ℕ) (M : CalibrationMatrix N) : List (List ℚ) :=
  (List.finRange N).map fun i => (List.finRange N).map fun j => M i j

/-- Entry `M i p` addressed by a natural-number column index. -/
def colEntry (N : ℕ) (M : CalibrationMatrix N) (i : Fin N) (p : ℕ) : ℚ :=
  if h : p < N then M i ⟨p, h⟩ else 0

/-- Modelled from the spec: the Moore–Penrose pseudo-inverse for the
singular case, by rank factorization `M = B * C` (pivot columns of `M`
and nonzero rows of the reduced row echelon form), giving
`Cᵀ (C Cᵀ)⁻¹ (Bᵀ B)⁻¹ Bᵀ`. -/
def moorePenrose (N : ℕ) (M : CalibrationMatrix N) : CalibrationMatrix N :=
  let RP := rref (toRows N M) N
  let pivs := RP.2
  let k := pivs.length
  let B : Matrix (Fin N) (Fin k) ℚ :=
    Matrix.of fun i j => colEntry N M i (pivs.getD j.val 0)
  let C : Matrix (Fin k) (Fin N) ℚ :=
    Matrix.of fun i j => entryAt RP.1 i.val j.val
  C.transpose * sqInverse k (C * C.transpose) * sqInverse k (B.transpose * B) * B.transpose

/-- Modelled from the spec: the generalized inverse cached by
`MeasurementFilter.fit`.  For an invertible matrix the Moore–Penrose
pseudo-inverse is the ordinary inverse, computed directly via the
adjugate; the rank-factorization route handles the singular case. -/
def genInverse (N : ℕ) (M : CalibrationMatrix N) : CalibrationMatrix N :=
  if M.det ≠ 0 then (M.det)⁻¹ • M.adjugate else moorePenrose N M

/-- The cached state of a fitted filter: the calibration matrix and its
generalized inverse. -/
structure FittedData (N : ℕ) where
  calMatrix : CalibrationMatrix N
  pinvMat : CalibrationMatrix N

/-- Modelled from the spec: the `MeasurementFilter` state machine,
`Unfitted --fit(M)--> Fitted` (the notebook obtains a fitted filter from
the external `CompleteMeasFitter.filter`). -/
inductive MeasurementFilter (N : ℕ) where
  | unfitted : MeasurementFilter N
  | fitted : FittedData N → MeasurementFilter N

/-- Whether a filter is in the `Fitted` state. -/
def MeasurementFilter.isFitted {N : ℕ} : MeasurementFilter N → Bool
  | .unfitted => false
  | .fitted _ => true

/-- Modelled from the spec: `MeasurementFilter.fit`, which computes and
caches the generalized inverse of the calibration matrix.  In exact
rational arithmetic the pseudo-inverse computation always terminates with
finite entries, so `SingularMatrixError` is never produced. -/
def MeasurementFilter.fit {N : ℕ} (M : CalibrationMatrix N) :
    Except FitError (MeasurementFilter N) :=
  .ok (.fitted ⟨M, genInverse N M⟩)

/-- The noisy input aligned to the `2 ^ n` label ordering (missing labels
read as zero) and multiplied by the cached pseudo-inverse. -/
def rawVec {N : ℕ} (P : CalibrationMatrix N) (noisy : OutcomeCounts) : Fin N → ℚ :=
  P.mulVec fun i => (lookupCount noisy i.val : ℚ)

/-- The raw corrected vector with negative entries clipped to zero. -/
def clippedVec {N : ℕ} (P : CalibrationMatrix N) (noisy : OutcomeCounts) : Fin N → ℚ :=
  fun i => max (rawVec P noisy i) 0

/-- Total mass of the clipped corrected vector. -/
def clippedSum {N : ℕ} (P : CalibrationMatrix N) (noisy : OutcomeCounts) : ℚ :=
  ∑ i, clippedVec P noisy i

/-- Modelled from the spec: the apply pipeline of `MeasurementFilter`:
multiply the cached pseudo-inverse by the aligned input vector, clip
negative entries to zero, and rescale so the sum equals the original
total shot count (when the clipped vector is not identically zero). -/
def mitigate {N : ℕ} (P : CalibrationMatrix N) (noisy : OutcomeCounts) : MitigatedCounts N :=
  if clippedSum P noisy = 0 then clippedVec P noisy
  else fun i => ((countTotal noisy : ℚ) / clippedSum P noisy) * clippedVec P noisy i

/-- Modelled from the spec: `MeasurementFilter.apply` (`meas_filter.apply`
in the notebook).  Valid only in the `Fitted` state; inputs whose labels
do not fit the matrix dimension are rejected. -/
def MeasurementFilter.apply {N : ℕ} (f : MeasurementFilter N) (noisy : OutcomeCounts) :
    Except ApplyError (MitigatedCounts N) :=
  match f with
  | .unfitted => .error .filterNotFittedError
  | .fitted d =>
    if ValidLabels N noisy then .ok (mitigate d.pinvMat noisy)
    else .error .labelCardinalityError

/-- Modelled from the spec: `apply` as a state transformer returning the
post-state together with the result; `apply` performs no state mutation,
so the post-state is the pre-state. -/
def MeasurementFilter.applyStep {N : ℕ} (f : MeasurementFilter N) (noisy : OutcomeCounts) :
    MeasurementFilter N × Except ApplyError (MitigatedCounts N) :=
  (f, f.apply noisy)

/-- The filter state after a whole sequence of `apply` calls. -/
def MeasurementFilter.applyAll {N : ℕ} (f : MeasurementFilter N)
    (cs : List OutcomeCounts) : MeasurementFilter N :=
  cs.foldl (fun g c => (g.applyStep c).1) f

/-- A matrix is column-stochastic: entries are non-negative and every
column sums to `1`. -/
def ColumnStochastic (N : ℕ) (M : CalibrationMatrix N) : Prop :=
  (∀ i j, 0 ≤ M i j) ∧ ∀ j, ∑ i, M i j = 1

/-- An input is non-degenerate for a fitted filter when the clipped
corrected vector is not identically zero, so that rescaling is defined. -/
def NondegenerateInput (N : ℕ) (d : FittedData N) (noisy : OutcomeCounts) : Prop :=
  clippedSum d.pinvMat noisy ≠ 0

/-! The notebook's answer flow, embedded from the source
(`Challenge2_MeasurementErrorMitigation.py`).  The four answers are
hard-coded string literals; the final cell calls
`show_final_answer(answer1, answer2, answer3, answer4)`. -/

/-- The number of qubits used by the notebook (`num_qubits = 5`). -/
def num_qubits : ℕ := 5

/-- The uncommented choice for question i (`answer1 = 'c'`). -/
def answer1 : String := "c"

/-- The uncommented choice for question ii (`answer2 = 'd'`). -/
def answer2 : String := "d"

/-- The uncommented choice for question iii (`answer3 = 'b'`). -/
def answer3 : String := "b"

/-- The uncommented choice for question iv (`answer4 = 'b'`). -/
def answer4 : String := "b"

/-- Modelled from the spec: `show_final_answer` from the external
`may4_challenge.ex2` module; the notebook states that the answer string
is just the string of all four answers. -/
def show_final_answer (a1 a2 a3 a4 : String) : String := a1 ++ a2 ++ a3 ++ a4

/-- The run-dependent data a notebook execution sees: the chosen backend,
the calibration job's results, and the provided noisy counts. -/
structure NotebookEnv where
  backendId : ℕ
  calResults : List (BasisLabel × OutcomeCounts)
  noisyCounts : List OutcomeCounts

/-- The notebook's data flow from the calibration results to the final
answer: build the calibration matrix, fit the filter, mitigate each of
the noisy count sets, and submit `show_final_answer` on the four
hard-coded answers. -/
def runNotebook (env : NotebookEnv) :
    List (Except ApplyError (MitigatedCounts (2 ^ num_qubits))) × String :=
  let built := CalibrationMatrixBuilder.build num_qubits env.calResults
  let filt : MeasurementFilter (2 ^ num_qubits) :=
    match built with
    | .ok M =>
      match MeasurementFilter.fit M with
      | .ok f => f
      | .error _ => .unfitted
    | .error _ => .unfitted
  let mitigated := env.noisyCounts.map filt.apply
  (mitigated, show_final_answer answer1 answer2 answer3 answer4)

/-! Helper lemmas about counts, the builder and the mitigation pipeline. -/

theorem lookupCount_le_countTotal (c : OutcomeCounts) (k : ℕ) :
    lookupCount c k ≤ countTotal c := by
  induction c with
  | nil => simp [lookupCount, countTotal]
  | cons kc rest ih =>
    simp only [lookupCount, countTotal]
    split <;> omega

theorem sum_lookupCount (N : ℕ) (c : OutcomeCounts) (h : ∀ kc ∈ c, kc.1 < N) :
    ∑ i : Fin N, lookupCount c i.val = countTotal c := by
  induction c with
  | nil => simp [lookupCount, countTotal]
  | cons kc rest ih =>
    have hk : kc.1 < N := h kc (List.mem_cons_self _ _)
    have hrest : ∀ p ∈ rest, p.1 < N := fun p hp => h p (List.mem_cons_of_mem _ hp)
    simp only [lookupCount, countTotal, Finset.sum_add_distrib, ih hrest]
    congr 1
    have hcond : ∀ i : Fin N,
        (if kc.1 = i.val then kc.2 else 0) = if i = ⟨kc.1, hk⟩ then kc.2 else 0 := by
      intro i
      by_cases hi : i = ⟨kc.1, hk⟩
      · subst hi; simp
      · rw [if_neg hi, if_neg fun hc => hi (Fin.ext hc.symm)]
    rw [Finset.sum_congr rfl fun i _ => hcond i, Finset.sum_ite_eq' Finset.univ]
    simp

theorem sum_lookupCount_cast (N : ℕ) (c : OutcomeCounts) (h : ∀ kc ∈ c, kc.1 < N) :
    ∑ i : Fin N, (lookupCount c i.val : ℚ) = (countTotal c : ℚ) := by
  rw [← Nat.cast_sum, sum_lookupCount N c h]

theorem lookupCount_append (a b : OutcomeCounts) (k : ℕ) :
    lookupCount (a ++ b) k = lookupCount a k + lookupCount b k := by
  induction a with
  | nil => simp [lookupCount]
  | cons kc rest ih => simp [lookupCount, ih, Nat.add_assoc]

theorem countTotal_append (a b : OutcomeCounts) :
    countTotal (a ++ b) = countTotal a + countTotal b := by
  induction a with
  | nil => simp [countTotal]
  | cons kc rest ih => simp [countTotal, ih, Nat.add_assoc]

theorem lookupCount_allKeys_self (c : OutcomeCounts) (j : ℕ) (h : ∀ kc ∈ c, kc.1 = j) :
    lookupCount c j = countTotal c := by
  induction c with
  | nil => rfl
  | cons kc rest ih =>
    have h1 : kc.1 = j := h kc (List.mem_cons_self _ _)
    simp [lookupCount, countTotal, h1, ih fun p hp => h p (List.mem_cons_of_mem _ hp)]

theorem lookupCount_allKeys_ne (c : OutcomeCounts) (j i : ℕ) (h : ∀ kc ∈ c, kc.1 = j)
    (hne : i ≠ j) : lookupCount c i = 0 := by
  induction c with
  | nil => rfl
  | cons kc rest ih =>
    have h1 : kc.1 = j := h kc (List.mem_cons_self _ _)
    rw [lookupCount, h1, if_neg fun hc => hne hc.symm,
      ih fun p hp => h p (List.mem_cons_of_mem _ hp)]

theorem runFor_spec (runs : List (BasisLabel × OutcomeCounts)) (j : ℕ)
    (h : ∃ p ∈ runs, p.1 = j) :
    ∃ p ∈ runs, p.1 = j ∧ runFor runs j = p.2 := by
  have hsome : (runs.find? fun p => p.1 == j).isSome := by
    rw [List.find?_isSome]
    obtain ⟨p, hp, hpj⟩ := h
    exact ⟨p, hp, by simp [hpj]⟩
  obtain ⟨q, hq⟩ := Option.isSome_iff_exists.mp hsome
  refine ⟨q, List.mem_of_find?_eq_some hq, ?_, ?_⟩
  · simpa using List.find?_some hq
  · simp [runFor, hq]

theorem genInverse_one (N : ℕ) : genInverse N (1 : CalibrationMatrix N) = 1 := by
  unfold genInverse
  rw [if_pos]
  · rw [Matrix.det_one, Matrix.adjugate_one]; simp
  · rw [Matrix.det_one]; exact one_ne_zero

theorem build_ok (n : ℕ) (runs : List (BasisLabel × OutcomeCounts))
    (hcov : ∀ j < 2 ^ n, ∃ p ∈ runs, p.1 = j)
    (hpos : ∀ p ∈ runs, 0 < countTotal p.2)
    (hkeys : ∀ p ∈ runs, ValidLabels (2 ^ n) p.2) :
    CalibrationMatrixBuilder.build n runs =
      .ok (Matrix.of fun i j =>
        (lookupCount (runFor runs j.val) i.val : ℚ) /
          (countTotal (runFor runs j.val) : ℚ)) := by
  unfold CalibrationMatrixBuilder.build
  rw [if_pos hcov, if_pos hpos, if_pos hkeys]

theorem mitigate_congr {N : ℕ} (P : CalibrationMatrix N) (c c' : OutcomeCounts)
    (hl : ∀ k, lookupCount c k = lookupCount c' k)
    (ht : countTotal c = countTotal c') :
    mitigate P c = mitigate P c' := by
  have hfun : (fun i : Fin N => (lookupCount c i.val : ℚ)) =
      fun i => (lookupCount c' i.val : ℚ) := funext fun i => by rw [hl]
  have hraw : rawVec P c = rawVec P c' := by
    unfold rawVec
    rw [hfun]
  unfold mitigate clippedSum clippedVec
  rw [hraw, ht]

theorem clippedVec_one {N : ℕ} (noisy : OutcomeCounts) :
    clippedVec (1 : CalibrationMatrix N) noisy =
      fun i => (lookupCount noisy i.val : ℚ) := by
  funext i
  unfold clippedVec rawVec
  rw [Matrix.one_mulVec]
  exact max_eq_left (Nat.cast_nonneg _)

theorem mitigate_one {N : ℕ} (noisy : OutcomeCounts) (h : ValidLabels N noisy) :
    mitigate (1 : CalibrationMatrix N) noisy =
      fun i => (lookupCount noisy i.val : ℚ) := by
  have hs : clippedSum (1 : CalibrationMatrix N) noisy = (countTotal noisy : ℚ) := by
    unfold clippedSum
    rw [clippedVec_one]
    exact sum_lookupCount_cast N noisy h
  unfold mitigate
  rw [hs, clippedVec_one]
  by_cases h0 : ((countTotal noisy : ℕ) : ℚ) = 0
  · rw [if_pos h0]
  · rw [if_neg h0]
    funext i
    rw [div_self h0, one_mul]

/-! The claim theorems. -/

/-- C1: for every n and every set of calibration runs covering all 2^n
labels in which run j yields all of its shots on label j, the built
calibration matrix is the identity, and the filter fitted from it maps
every outcome-count input to itself. -/
theorem build_perfect_calibration_identity (n : ℕ)
    (runs : List (BasisLabel × OutcomeCounts))
    (hcov : ∀ j < 2 ^ n, ∃ p ∈ runs, p.1 = j)
    (hlab : ∀ p ∈ runs, p.1 < 2 ^ n)
    (hperf : ∀ p ∈ runs, ∀ kc ∈ p.2, kc.1 = p.1)
    (hpos : ∀ p ∈ runs, 0 < countTotal p.2) :
    CalibrationMatrixBuilder.build n runs = .ok (1 : CalibrationMatrix (2 ^ n)) ∧
    ∀ f, MeasurementFilter.fit (1 : CalibrationMatrix (2 ^ n)) = .ok f →
      ∀ noisy, ValidLabels (2 ^ n) noisy →
        f.apply noisy = .ok fun i => (lookupCount noisy i.val : ℚ) := by
  have hkeys : ∀ p ∈ runs, ValidLabels (2 ^ n) p.2 := by
    intro p hp kc hkc
    rw [hperf p hp kc hkc]
    exact hlab p hp
  constructor
  · rw [build_ok n runs hcov hpos hkeys]
    congr 1
    ext i j
    obtain ⟨p, hp, hpj, hrf⟩ := runFor_spec runs j.val (hcov j.val j.isLt)
    have hall : ∀ kc ∈ p.2, kc.1 = j.val := by
      intro kc hkc
      rw [hperf p hp kc hkc, hpj]
    rw [Matrix.of_apply, hrf, Matrix.one_apply]
    by_cases hij : i = j
    · subst hij
      rw [lookupCount_allKeys_self p.2 i.val hall, if_pos rfl]
      exact div_self (Nat.cast_ne_zero.mpr (hpos p hp).ne')
    · rw [lookupCount_allKeys_ne p.2 j.val i.val hall fun hc => hij (Fin.ext hc),
        if_neg hij]
      simp
  · intro f hf noisy hval
    unfold MeasurementFilter.fit at hf
    injection hf with hf2
    subst hf2
    simp only [MeasurementFilter.apply]
    rw [if_pos hval, genInverse_one, mitigate_one noisy hval]

/-- A concrete perfect calibration for n = 1: each run puts all its shots
on its prepared label. -/
def runsPerfect : List (BasisLabel × OutcomeCounts) := [(0, [(0, 3)]), (1, [(1, 5)])]

/-- Witness for the perfect-calibration claim at n = 1. -/
theorem build_perfect_calibration_identity_witness :
    CalibrationMatrixBuilder.build 1 runsPerfect = .ok (1 : CalibrationMatrix (2 ^ 1)) ∧
    (MeasurementFilter.fitted ⟨1, genInverse (2 ^ 1) 1⟩).apply [(0, 7)] =
      .ok fun i => (lookupCount [(0, 7)] i.val : ℚ) := by
  have h := build_perfect_calibration_identity 1 runsPerfect
    (by decide) (by decide) (by decide) (by decide)
  exact ⟨h.1, h.2 _ rfl [(0, 7)] (by decide)⟩

/-- C2: on every valid input, every column j of the built matrix is the
outcome counts of run j divided by that run's total shots, so columns sum
to one and entries lie in the unit interval. -/
theorem build_columns_normalized (n : ℕ) (runs : List (BasisLabel × OutcomeCounts))
    (hcov : ∀ j < 2 ^ n, ∃ p ∈ runs, p.1 = j)
    (hpos : ∀ p ∈ runs, 0 < countTotal p.2)
    (hkeys : ∀ p ∈ runs, ValidLabels (2 ^ n) p.2) :
    ∃ M, CalibrationMatrixBuilder.build n runs = .ok M ∧
      (∀ i j, M i j = (lookupCount (runFor runs j.val) i.val : ℚ) /
        (countTotal (runFor runs j.val) : ℚ)) ∧
      (∀ j, ∑ i, M i j = 1) ∧
      ∀ i j, 0 ≤ M i j ∧ M i j ≤ 1 := by
  refine ⟨_, build_ok n runs hcov hpos hkeys, fun i j => rfl, ?_, ?_⟩
  · intro j
    obtain ⟨p, hp, hpj, hrf⟩ := runFor_spec runs j.val (hcov j.val j.isLt)
    have hT : (0 : ℚ) < (countTotal (runFor runs j.val) : ℚ) := by
      rw [hrf]
      exact_mod_cast hpos p hp
    have hkeysj : ValidLabels (2 ^ n) (runFor runs j.val) := by
      rw [hrf]
      exact hkeys p hp
    simp only [Matrix.of_apply]
    rw [← Finset.sum_div, sum_lookupCount_cast _ _ hkeysj, div_self hT.ne']
  · intro i j
    obtain ⟨p, hp, hpj, hrf⟩ := runFor_spec runs j.val (hcov j.val j.isLt)
    have hT : (0 : ℚ) < (countTotal (runFor runs j.val) : ℚ) := by
      rw [hrf]
      exact_mod_cast hpos p hp
    simp only [Matrix.of_apply]
    constructor
    · exact div_nonneg (Nat.cast_nonneg _) hT.le
    · rw [div_le_one hT]
      exact_mod_cast lookupCount_le_countTotal _ _

/-- Witness for the column-normalization claim at n = 1. -/
theorem build_columns_normalized_witness :
    ∃ M, CalibrationMatrixBuilder.build 1 runsPerfect = .ok M ∧
      (∀ i j, M i j = (lookupCount (runFor runsPerfect j.val) i.val : ℚ) /
        (countTotal (runFor runsPerfect j.val) : ℚ)) ∧
      (∀ j, ∑ i, M i j = 1) ∧
      ∀ i j, 0 ≤ M i j ∧ M i j ≤ 1 :=
  build_columns_normalized 1 runsPerfect (by decide) (by decide) (by decide)

/-- C3: for every fitted filter and non-degenerate input on which apply
succeeds, the mitigated counts sum to the input's total shot count. -/
theorem apply_preserves_total (N : ℕ) (d : FittedData N) (noisy : OutcomeCounts)
    (r : MitigatedCounts N)
    (happ : (MeasurementFilter.fitted d).apply noisy = .ok r)
    (hnd : NondegenerateInput N d noisy) :
    ∑ i, r i = (countTotal noisy : ℚ) := by
  simp only [MeasurementFilter.apply] at happ
  by_cases hval : ValidLabels N noisy
  · rw [if_pos hval] at happ
    injection happ with hr
    subst hr
    unfold NondegenerateInput at hnd
    unfold mitigate
    rw [if_neg hnd, ← Finset.mul_sum]
    show (countTotal noisy : ℚ) / clippedSum d.pinvMat noisy * clippedSum d.pinvMat noisy = _
    rw [div_mul_cancel₀ _ hnd]
  · rw [if_neg hval] at happ
    exact absurd happ (by simp)

/-- Witness for mass preservation: a fitted identity filter applied to a
two-label input. -/
theorem apply_preserves_total_witness :
    ∑ i, mitigate (1 : CalibrationMatrix 2) [(0, 2)] i = ((countTotal [(0, 2)] : ℕ) : ℚ) := by
  have hnd : NondegenerateInput 2 ⟨1, 1⟩ [(0, 2)] := by
    show clippedSum (1 : CalibrationMatrix 2) [(0, 2)] ≠ 0
    unfold clippedSum
    rw [clippedVec_one, Fin.sum_univ_two]
    norm_num [lookupCount]
  exact apply_preserves_total 2 ⟨1, 1⟩ [(0, 2)] _ rfl hnd

/-- C4: every mitigated-counts entry returned by apply is non-negative. -/
theorem apply_nonneg (N : ℕ) (f : MeasurementFilter N) (noisy : OutcomeCounts)
    (r : MitigatedCounts N) (happ : f.apply noisy = .ok r) : ∀ i, 0 ≤ r i := by
  cases f with
  | unfitted => exact absurd happ (by simp [MeasurementFilter.apply])
  | fitted d =>
    simp only [MeasurementFilter.apply] at happ
    by_cases hval : ValidLabels N noisy
    · rw [if_pos hval] at happ
      injection happ with hr
      subst hr
      intro i
      unfold mitigate
      by_cases hs : clippedSum d.pinvMat noisy = 0
      · rw [if_pos hs]
        exact le_max_right _ _
      · rw [if_neg hs]
        have hs0 : 0 ≤ clippedSum d.pinvMat noisy :=
          Finset.sum_nonneg fun i _ => le_max_right _ _
        exact mul_nonneg (div_nonneg (Nat.cast_nonneg _) hs0) (le_max_right _ _)
    · rw [if_neg hval] at happ
      exact absurd happ (by simp)

/-- Witness for non-negativity at a concrete fitted filter and input. -/
theorem apply_nonneg_witness : 0 ≤ mitigate (1 : CalibrationMatrix 2) [(0, 2)] 0 :=
  apply_nonneg 2 (.fitted ⟨1, 1⟩) [(0, 2)] _ rfl 0

/-- C5: apply on an unfitted filter always fails with the
filter-not-fitted error, and apply succeeds only on fitted filters. -/
theorem apply_requires_fitted :
    (∀ (N : ℕ) (noisy : OutcomeCounts),
      (MeasurementFilter.unfitted : MeasurementFilter N).apply noisy =
        .error .filterNotFittedError) ∧
    ∀ (N : ℕ) (f : MeasurementFilter N) (noisy : OutcomeCounts) (r : MitigatedCounts N),
      f.apply noisy = .ok r → f.isFitted = true := by
  refine ⟨fun N noisy => rfl, fun N f noisy r happ => ?_⟩
  cases f with
  | unfitted => exact absurd happ (by simp [MeasurementFilter.apply])
  | fitted d => rfl

/-- Witness: the unfitted failure and a fitted success at concrete data. -/
theorem apply_requires_fitted_witness :
    (MeasurementFilter.unfitted : MeasurementFilter 2).apply [] =
      .error .filterNotFittedError ∧
    (MeasurementFilter.fitted (⟨1, 1⟩ : FittedData 2)).isFitted = true :=
  ⟨apply_requires_fitted.1 2 [], apply_requires_fitted.2 2 _ [] _ rfl⟩

/-- C6: the builder fails with the incomplete-calibration error when fewer
than 2^n distinct prepared labels are supplied; with the
inconsistent-shot-count error when (labels covering) some run sums to
zero; with the unknown-label error when (labels covering, totals positive)
some outcome key is invalid; and succeeds when all three preconditions
hold.  Checks happen in the order the spec lists the error conditions. -/
theorem build_error_conditions :
    (∀ (n : ℕ) (runs : List (BasisLabel × OutcomeCounts)),
      (runs.map Prod.fst).dedup.length < 2 ^ n →
        CalibrationMatrixBuilder.build n runs = .error .incompleteCalibrationError) ∧
    (∀ (n : ℕ) (runs : List (BasisLabel × OutcomeCounts)),
      (∀ j < 2 ^ n, ∃ p ∈ runs, p.1 = j) →
      (∃ p ∈ runs, countTotal p.2 = 0) →
        CalibrationMatrixBuilder.build n runs = .error .inconsistentShotCountError) ∧
    (∀ (n : ℕ) (runs : List (BasisLabel × OutcomeCounts)),
      (∀ j < 2 ^ n, ∃ p ∈ runs, p.1 = j) →
      (∀ p ∈ runs, 0 < countTotal p.2) →
      (∃ p ∈ runs, ∃ kc ∈ p.2, ¬kc.1 < 2 ^ n) →
        CalibrationMatrixBuilder.build n runs = .error .unknownLabelError) ∧
    ∀ (n : ℕ) (runs : List (BasisLabel × OutcomeCounts)),
      (∀ j < 2 ^ n, ∃ p ∈ runs, p.1 = j) →
      (∀ p ∈ runs, 0 < countTotal p.2) →
      (∀ p ∈ runs, ValidLabels (2 ^ n) p.2) →
        (CalibrationMatrixBuilder.build n runs).isOk = true := by
  refine ⟨?_, ?_, ?_, ?_⟩
  · intro n runs hdedup
    unfold CalibrationMatrixBuilder.build
    rw [if_neg]
    intro hcov
    have hsub : Finset.range (2 ^ n) ⊆ (runs.map Prod.fst).toFinset := by
      intro j hj
      rw [List.mem_toFinset, List.mem_map]
      obtain ⟨p, hp, hpj⟩ := hcov j (Finset.mem_range.mp hj)
      exact ⟨p, hp, hpj⟩
    have hcard := Finset.card_le_card hsub
    rw [Finset.card_range, List.card_toFinset] at hcard
    omega
  · intro n runs hcov hz
    unfold CalibrationMatrixBuilder.build
    rw [if_pos hcov, if_neg]
    intro hpos
    obtain ⟨p, hp, hp0⟩ := hz
    have := hpos p hp
    omega
  · intro n runs hcov hpos hbad
    unfold CalibrationMatrixBuilder.build
    rw [if_pos hcov, if_pos hpos, if_neg]
    intro hkeys
    obtain ⟨p, hp, kc, hkc, hval⟩ := hbad
    exact hval (hkeys p hp kc hkc)
  · intro n runs hcov hpos hkeys
    rw [build_ok n runs hcov hpos hkeys]
    rfl

/-- Witness exercising all four builder outcomes at n = 1. -/
theorem build_error_conditions_witness :
    CalibrationMatrixBuilder.build 1 [] = .error .incompleteCalibrationError ∧
    CalibrationMatrixBuilder.build 1 [(0, []), (1, [(1, 4)])] =
      .error .inconsistentShotCountError ∧
    CalibrationMatrixBuilder.build 1 [(0, [(5, 3)]), (1, [(1, 4)])] =
      .error .unknownLabelError ∧
    (CalibrationMatrixBuilder.build 1 runsPerfect).isOk = true :=
  ⟨build_error_conditions.1 1 [] (by decide),
    build_error_conditions.2.1 1 [(0, []), (1, [(1, 4)])] (by decide) (by decide),
    build_error_conditions.2.2.1 1 [(0, [(5, 3)]), (1, [(1, 4)])]
      (by decide) (by decide) (by decide),
    build_error_conditions.2.2.2 1 runsPerfect (by decide) (by decide) (by decide)⟩

/-- C7: fitting succeeds for every column-stochastic calibration matrix,
singular ones included; the singular-matrix error is never produced (in
exact rational arithmetic the pseudo-inverse computation cannot diverge
or produce non-finite values). -/
theorem fit_never_singular (N : ℕ) (M : CalibrationMatrix N)
    (_hM : ColumnStochastic N M) :
    (MeasurementFilter.fit M).isOk = true ∧
    ∀ e, MeasurementFilter.fit M ≠ .error e :=
  ⟨rfl, fun e h => by simp [MeasurementFilter.fit] at h⟩

/-- A singular (rank-one) column-stochastic matrix. -/
def halfMatrix : CalibrationMatrix 2 := Matrix.of fun _ _ => (1 : ℚ) / 2

/-- Witness: fitting the singular column-stochastic matrix succeeds. -/
theorem fit_never_singular_witness :
    ColumnStochastic 2 halfMatrix ∧ halfMatrix.det = 0 ∧
    (MeasurementFilter.fit halfMatrix).isOk = true := by
  have hcs : ColumnStochastic 2 halfMatrix := by
    constructor
    · intro i j
      norm_num [halfMatrix]
    · intro j
      rw [Fin.sum_univ_two]
      norm_num [halfMatrix]
  refine ⟨hcs, ?_, (fit_never_singular 2 halfMatrix hcs).1⟩
  rw [Matrix.det_fin_two]
  norm_num [halfMatrix]

/-- C8: for a fitted filter, omitting a valid label from the input and
listing it with an explicit zero count give the same mitigated counts. -/
theorem apply_missing_label (N : ℕ) (f : MeasurementFilter N) (noisy : OutcomeCounts)
    (L : BasisLabel) (_hf : f.isFitted = true) (hL : L < N)
    (_habs : L ∉ noisy.map Prod.fst) :
    f.apply (noisy ++ [(L, 0)]) = f.apply noisy := by
  cases f with
  | unfitted => rfl
  | fitted d =>
    have hval : ValidLabels N (noisy ++ [(L, 0)]) ↔ ValidLabels N noisy := by
      unfold ValidLabels
      constructor
      · intro h kc hkc
        exact h kc (List.mem_append_left _ hkc)
      · intro h kc hkc
        rcases List.mem_append.mp hkc with h1 | h1
        · exact h kc h1
        · have : kc = (L, 0) := by simpa using h1
          rw [this]
          exact hL
    simp only [MeasurementFilter.apply]
    by_cases hv : ValidLabels N noisy
    · rw [if_pos hv, if_pos (hval.mpr hv)]
      congr 1
      apply mitigate_congr
      · intro k
        rw [lookupCount_append]
        simp [lookupCount]
      · rw [countTotal_append]
        simp [countTotal]
    · rw [if_neg hv, if_neg fun h => hv (hval.mp h)]

/-- Witness for missing-label robustness at concrete data. -/
theorem apply_missing_label_witness :
    (MeasurementFilter.fitted (⟨1, 1⟩ : FittedData 2)).apply ([(0, 4)] ++ [(1, 0)]) =
      (MeasurementFilter.fitted (⟨1, 1⟩ : FittedData 2)).apply [(0, 4)] :=
  apply_missing_label 2 _ [(0, 4)] 1 rfl (by decide) (by decide)

/-- C9: apply leaves the filter state unchanged: its post-state is the
pre-state, and after any sequence of apply calls the state still equals
the state produced by fit. -/
theorem apply_no_mutation (N : ℕ) (f : MeasurementFilter N) (_hf : f.isFitted = true) :
    (∀ noisy, (f.applyStep noisy).1 = f) ∧ ∀ cs, f.applyAll cs = f := by
  refine ⟨fun noisy => rfl, ?_⟩
  intro cs
  induction cs with
  | nil => rfl
  | cons c cs ih => exact ih

/-- Witness: a sequence of two apply calls leaves a fitted filter
unchanged. -/
theorem apply_no_mutation_witness :
    (MeasurementFilter.fitted (⟨1, 1⟩ : FittedData 2)).applyAll [[(0, 1)], []] =
      MeasurementFilter.fitted (⟨1, 1⟩ : FittedData 2) :=
  (apply_no_mutation 2 (MeasurementFilter.fitted (⟨1, 1⟩ : FittedData 2)) rfl).2
    [[(0, 1)], []]

/-- C10: every notebook execution submits the answer string built from the
constant answers c, d, b, b, independently of the backend, the calibration
results and the noisy counts. -/
theorem final_answer_constant :
    ∀ env env2 : NotebookEnv,
      (runNotebook env).2 = show_final_answer "c" "d" "b" "b" ∧
      (runNotebook env).2 = (runNotebook env2).2 :=
  fun _ _ => ⟨rfl, rfl⟩

/-- Witness evaluating the submitted answer string at a concrete
environment. -/
theorem final_answer_constant_witness :
    (runNotebook ⟨0, [], []⟩).2 = show_final_answer "c" "d" "b" "b" :=
  (final_answer_constant ⟨0, [], []⟩ ⟨1, [], []⟩).1

end MeasErrMit
